import Mathlib

/-
Verification development for the pyClarion construct-realization engine.

The development shallowly embeds the two source modules:
  * `components/rules.py` — the `Rule` form and the `Rules` database with
    deferred add/delete promises;
  * `base/realizers.py` — the `Realizer`/`Construct`/`Structure` engine with
    its link tables, assembly finalization, output clearing, update ordering
    and the scoped build-context protocol.

External collaborator interfaces (the numeric-container `NumDict`, the
`Emitter`/`Updater`/`Cycle` capabilities) live outside the embedded sources;
where their behaviour matters it is modelled from the specification's
interface descriptions, and each such definition says so in its doc comment.
Machine floats of the source are modelled as exact rationals.
-/

namespace PyClarion

/-! ### Association-list primitives

Python `dict`s keyed by symbols are modelled as association lists that keep
insertion order; assignment to an existing key replaces the value in place,
assignment to a fresh key appends. -/

/-- Lookup of a key in an association list (first match). -/
def lookupA {κ α : Type} [DecidableEq κ] : List (κ × α) → κ → Option α
  | [], _ => none
  | (k, v) :: t, k₀ => if k = k₀ then some v else lookupA t k₀

/-- Dict assignment: replace the value of an existing key in place, otherwise
append the new binding at the end (Python `d[k] = v`). -/
def insA {κ α : Type} [DecidableEq κ] : List (κ × α) → κ → α → List (κ × α)
  | [], k, v => [(k, v)]
  | (k', v') :: t, k, v =>
      if k' = k then (k, v) :: t else (k', v') :: insA t k v

/-- Dict deletion of a present key (Python `del d[k]`); removes the first
binding for the key. -/
def eraseA {κ α : Type} [DecidableEq κ] : List (κ × α) → κ → List (κ × α)
  | [], _ => []
  | (k', v') :: t, k => if k' = k then t else (k', v') :: eraseA t k

/-! ### Rule forms (`components/rules.py`, class `Rule`) -/

/-- Chunk symbols of the rule domain, taken as an opaque identity type. -/
abbrev Chunk := Nat

/-- Rule symbols naming entries of a rule database. -/
abbrev RSym := Nat

/-- Errors that the embedded Python code can raise.  Only the class of the
exception matters to the claims, not the message text. -/
inductive RErr where
| valueError
| keyError
| assertionError
deriving DecidableEq, Repr

/-- Modelled from the spec: `MutableNumDict.extend(conds, value)` of the
external numeric-container module maps each listed key that is not already
present to the given value ("weights auto-completed to 1.0 for unweighted
conditions"). -/
def extendW : List (Chunk × ℚ) → List Chunk → ℚ → List (Chunk × ℚ)
  | ws, [], _ => ws
  | ws, c :: t, v =>
      extendW (if (lookupA ws c).isSome then ws else ws ++ [(c, v)]) t v

/-- Modelled from the spec: `nd.val_sum`, the sum-reduction of the external
numeric container over its values. -/
def valSum (ws : List (Chunk × ℚ)) : ℚ :=
  (ws.map Prod.snd).sum

/-- Boolean test for `set(weights) == set(conds)` used by the first
postcondition assert of `Rule.__init__`. -/
def keysEqB (ws : List (Chunk × ℚ)) (conds : List Chunk) : Bool :=
  (ws.map Prod.fst).all (fun k => decide (k ∈ conds)) &&
    conds.all (fun c => (lookupA ws c).isSome)

/-- A rule form: conclusion chunk plus condition weights.  The `ty` field
models the runtime class tag of the Python object, used by the
`isinstance(val, self.Rule)` check of `Rules.__setitem__`; `Rule.__init__`
always constructs the base class, tag `0`. -/
structure RuleF where
  conc : Chunk
  weights : List (Chunk × ℚ)
  ty : Nat
deriving DecidableEq, Repr

/-- Embedding of `Rule.__init__`.  The two precondition checks of the source
construct `ValueError(...)` without a `raise` statement, so they have no
effect and appear here as dead code; the two postcondition `assert`
statements do raise `AssertionError` when they fail and are modelled as
checks.  Weight arithmetic (`extend`, `val_sum`, scalar division) follows
the numeric-container interface of the spec, in exact rationals. -/
def ruleInit (conc : Chunk) (conds : List Chunk)
    (weights : Option (List (Chunk × ℚ))) : Except RErr RuleF :=
  -- `if not set(conds).issuperset(weights): ValueError(...)`   (not raised)
  -- `if not all(0 < v for v in weights.values()): ValueError(...)` (not raised)
  let ws0 := weights.getD []
  let ws1 := extendW ws0 conds 1
  let s := valSum ws1
  let ws2 := if 1 < s then ws1.map (fun p => (p.1, p.2 / s)) else ws1
  if keysEqB ws2 conds then
    if valSum ws2 ≤ 1 then .ok ⟨conc, ws2, 0⟩
    else .error .assertionError
  else .error .assertionError

/-- Embedding of `Rule.strength`: the weighted sum of the condition
strengths over the keys shared with the stored weights (`nd.keep` followed
by elementwise multiplication and `val_sum`, per the numeric-container
interface of the spec). -/
def strength (r : RuleF) (strengths : List (Chunk × ℚ)) : ℚ :=
  (strengths.filterMap
    (fun p => (lookupA r.weights p.1).map (fun w => p.2 * w))).sum

/-! ### Rule database (`components/rules.py`, class `Rules`) -/

/-- Embedding of the `Rules` database state: installed rules, the optional
condition-count bound, the configured rule class tag, and the two promise
stores for deferred updates. -/
structure Rules where
  data : List (RSym × RuleF)
  maxConds : Option Nat
  ruleTy : Nat
  addPromises : List (RSym × RuleF)
  delPromises : List RSym
deriving DecidableEq, Repr

/-- Embedding of `Rules._validate_rule_form`: raises `ValueError` when a
condition-count bound is configured and exceeded. -/
def Rules.validateRuleForm (db : Rules) (form : RuleF) : Except RErr Unit :=
  match db.maxConds with
  | some m => if m < form.weights.length then .error .valueError else .ok ()
  | none => .ok ()

/-- Embedding of `Rules.__setitem__`: validates the form, then stores it only
when it is an instance of the configured rule class.  In the source the
`TypeError(...)` of the else-branch is constructed but never raised, so a
wrong-typed value is silently dropped and the database is returned
unchanged. -/
def Rules.setitem (db : Rules) (k : RSym) (v : RuleF) : Except RErr Rules :=
  match db.validateRuleForm v with
  | .error e => .error e
  | .ok _ =>
      if v.ty = db.ruleTy then .ok { db with data := insA db.data k v }
      else .ok db

/-- Embedding of `Rules.__delitem__` (`del self._data[key]`): `KeyError` on a
missing key. -/
def Rules.delitem (db : Rules) (k : RSym) : Except RErr Rules :=
  if (lookupA db.data k).isSome then .ok { db with data := eraseA db.data k }
  else .error .keyError

/-- Embedding of `Rules.request_add`: rejects a symbol already registered for
a promised update, otherwise records the addition promise. -/
def Rules.requestAdd (db : Rules) (r : RSym) (form : RuleF) :
    Except RErr Rules :=
  if (lookupA db.addPromises r).isSome || r ∈ db.delPromises then
    .error .valueError
  else .ok { db with addPromises := insA db.addPromises r form }

/-- Embedding of `Rules.request_del`: rejects a symbol already registered for
a promised update or absent from the database, otherwise records the
deletion promise. -/
def Rules.requestDel (db : Rules) (r : RSym) : Except RErr Rules :=
  if (lookupA db.addPromises r).isSome || r ∈ db.delPromises then
    .error .valueError
  else if (lookupA db.data r).isNone then .error .valueError
  else .ok { db with delPromises := db.delPromises ++ [r] }

/-- Embedding of `Rules.step`: apply and clear all promised deletions, then
apply and clear all promised additions (each addition going through
`__setitem__`). -/
def Rules.step (db : Rules) : Except RErr Rules := do
  let db1 ← db.delPromises.foldlM (fun acc r => acc.delitem r) db
  let db2 : Rules := { db1 with delPromises := [] }
  let db3 ← db.addPromises.foldlM (fun acc p => acc.setitem p.1 p.2) db2
  pure { db3 with addPromises := [] }

/-! ### Construct symbols (`base/symbols.py`) -/

/-- A construct symbol: a bitmaskable construct-type tag plus a name.
Equality is by value.  The source's `ConstructType` flag enumeration is
modelled by the `Nat` bitmask `ctype`; `&` between construct types is
bitwise and. -/
structure CSym where
  ctype : Nat
  name : Nat
deriving DecidableEq, Repr

/-! ### Outputs

A `Construct`'s output is a numeric container, treated opaquely here (the
`num` constructor); a `Structure`'s output is a `SymbolTrie`, a nested
mapping from member symbol to member output (the `trie` constructor). -/

/-- Output values of realizers. -/
inductive OutVal where
| num : Int → OutVal
| trie : List (CSym × OutVal) → OutVal

/-! ### Realizer trees (`base/realizers.py`)

A `Realizer` is either a leaf `Construct` (`cns`) or a container `Structure`
(`strc`).  The external `Emitter`/`Propagator`/`Cycle`/`Updater` capabilities
enter only through the data the engine reads from them:

  * `emExp`  — the emitter's `expected` set, with `expects s` modelled from
    the spec interface as membership (`s ∈ expected`);
  * `dflt`   — the propagator's default output `emitter.emit()`;
  * `outMask` — a `Cycle` emitter's `output` construct-type mask;
  * `upExp`  — the optional updater's `expected` set (`none` = no updater).

The input-link table `inputs` keeps only the source symbols: the stored
callback for source `s` is always the `view` bound method of the realizer
named `s`, so it is determined by the key. -/

/-- A realizer: leaf construct or container structure. -/
inductive Rlz where
| cns (sym : CSym) (emExp : List CSym) (dflt : OutVal) (upExp : Option (List CSym))
      (inputs : List CSym) (out : OutVal) : Rlz
| strc (sym : CSym) (emExp : List CSym) (outMask : Nat) (upExp : Option (List CSym))
       (inputs : List CSym) (out : OutVal) (members : List Rlz) : Rlz

/-- Identity symbol of a realizer (`Realizer.construct`). -/
def symOf : Rlz → CSym
  | .cns sy _ _ _ _ _ => sy
  | .strc sy _ _ _ _ _ _ => sy

/-- Emitter `expected` set of a realizer. -/
def emExpOf : Rlz → List CSym
  | .cns _ ee _ _ _ _ => ee
  | .strc _ ee _ _ _ _ _ => ee

/-- Updater `expected` set of a realizer (`none` when no updater is
attached). -/
def upExpOf : Rlz → Option (List CSym)
  | .cns _ _ _ ue _ _ => ue
  | .strc _ _ _ ue _ _ _ => ue

/-- Input-link table keys of a realizer (`Realizer.inputs`). -/
def inputsOf : Rlz → List CSym
  | .cns _ _ _ _ inp _ => inp
  | .strc _ _ _ _ inp _ _ => inp

/-- Cached output of a realizer (`Realizer.output`). -/
def outOf : Rlz → OutVal
  | .cns _ _ _ _ _ o => o
  | .strc _ _ _ _ _ o _ => o

/-- Whether a realizer is a `Structure` (Python `isinstance(r, Structure)`). -/
def isStrc : Rlz → Bool
  | .cns _ _ _ _ _ _ => false
  | .strc _ _ _ _ _ _ _ => true

/-- Member list of a realizer (empty for a leaf construct). -/
def membersOf : Rlz → List Rlz
  | .cns _ _ _ _ _ _ => []
  | .strc _ _ _ _ _ _ mem => mem

/-- Embedding of `Realizer._accepts`: true iff the emitter or the attached
updater declares the source among its expected inputs.  `expects` of the
external capabilities is modelled from the spec as membership in the
`expected` set. -/
def acceptsL (emExp : List CSym) (upExp : Option (List CSym)) (s : CSym) : Bool :=
  decide (s ∈ emExp) ||
    (match upExp with | some l => decide (s ∈ l) | none => false)

/-- `Realizer._accepts` read off a realizer tree node. -/
def acceptsR (r : Rlz) (s : CSym) : Bool :=
  acceptsL (emExpOf r) (upExpOf r) s

/-- Key insertion of Python dict assignment restricted to the key list: an
existing key keeps its position (its value is overwritten with the same
callback), a fresh key is appended. -/
def insSym (inp : List CSym) (s : CSym) : List CSym :=
  if s ∈ inp then inp else inp ++ [s]

mutual
/-- Embedding of `_offer(construct, callback)`.  On a leaf construct this is
`Realizer._offer`: store the link iff accepted.  On a structure this is
`Structure._offer`: store on the structure itself iff accepted, then
propagate the same offer to every member. -/
def offerR : Rlz → CSym → Rlz
  | .cns sy ee d ue inp o, s =>
      .cns sy ee d ue (if acceptsL ee ue s then insSym inp s else inp) o
  | .strc sy ee m ue inp o mem, s =>
      .strc sy ee m ue (if acceptsL ee ue s then insSym inp s else inp) o
        (offerL mem s)
/-- Pointwise `_offer` over a member list. -/
def offerL : List Rlz → CSym → List Rlz
  | [], _ => []
  | r :: rs, s => offerR r s :: offerL rs s
end

/-! ### Adding members and wiring links (`Structure._add`,
`Structure._update_links`)

The source registry is a two-level dict, first keyed by construct type and
then by symbol.  Claims settled here do not depend on the cross-type-bucket
iteration order, so the registry is flattened to one symbol-keyed list; a
symbol already present is replaced in place (last write wins), a fresh one
is appended. -/

/-- Lookup of a member realizer by symbol (`Structure.__getitem__`). -/
def findBySym (l : List Rlz) (s : CSym) : Option Rlz :=
  l.find? (fun m => decide (symOf m = s))

/-- Registry insertion step of `Structure._add`: an existing entry for the
same symbol is silently replaced, otherwise the realizer is appended. -/
def insertMember (l : List Rlz) (r : Rlz) : List Rlz :=
  if l.any (fun m => decide (symOf m = symOf r)) then
    l.map (fun m => if symOf m = symOf r then r else m)
  else l ++ [r]

/-- Embedding of `Structure._update_links`: the member named `t` and every
other member mutually offer each other their output accessors.  Offers to
the other members and offers to the target touch disjoint realizers, so the
interleaved loop of the source is split into one accumulation for the target
and one map over the rest. -/
def updateLinks (l : List Rlz) (t : CSym) : List Rlz :=
  match findBySym l t with
  | none => l
  | some tr =>
      let tr2 := (l.filter (fun m => decide (symOf m ≠ t))).foldl
                   (fun acc m => offerR acc (symOf m)) tr
      l.map (fun m => if symOf m = t then tr2 else offerR m t)

/-- One step of `Structure._add`: register the realizer, then wire links. -/
def addOne (l : List Rlz) (r : Rlz) : List Rlz :=
  updateLinks (insertMember l r) (symOf r)

/-- Embedding of `Structure._add(*realizers)`: add each realizer in turn. -/
def addAll (l : List Rlz) (rs : List Rlz) : List Rlz :=
  rs.foldl addOne l

/-- `Structure._add` lifted to the structure node: only the member registry
changes; the structure's own input-link table is untouched. -/
def addR : Rlz → List Rlz → Rlz
  | .cns sy ee d ue inp o, _ => .cns sy ee d ue inp o
  | .strc sy ee m ue inp o mem, rs => .strc sy ee m ue inp o (addAll mem rs)

/-! ### Build-context protocol (`Structure.__enter__`, `Structure.__exit__`)

The process-wide context variables `BUILD_CTX` and `BUILD_LIST` are modelled
as stacks of saved values: `ContextVar.set` pushes the new value and
`ContextVar.reset` pops back to the previous one; the current value is the
top.  Pending realizers are tracked by their symbols. -/

/-- State of the two build context variables. -/
structure BuildState where
  ctxStack : List (List CSym)
  pendStack : List (List CSym)
deriving DecidableEq, Repr

/-- Embedding of `Structure.__enter__`: push the extended context path and a
fresh, empty pending list. -/
def enterCtx (sy : CSym) (st : BuildState) : BuildState :=
  let parent := st.ctxStack.headD []
  { ctxStack := (parent ++ [sy]) :: st.ctxStack,
    pendStack := [] :: st.pendStack }

/-- Result of `Structure.__exit__`.  On the normal path the two context
variables are reset and the pending realizers are attached (with a
finalization pass when this was the outermost scope).  `raisedUnboundLocal`
records that the exit path itself raised a new `UnboundLocalError`, carrying
the build state left behind at the raise. -/
inductive ExitResult where
| ok (st : BuildState) (attached : List CSym) (finalized : Bool)
| raisedUnboundLocal (st : BuildState)
deriving DecidableEq, Repr

/-- Embedding of `Structure.__exit__`.  The source binds `add_list` only
inside the `exc_type is None` branch but executes `print(add_list)`
unconditionally, before the two `ContextVar.reset` calls: on an abnormal
exit the name is unbound, so the exit path raises `UnboundLocalError` and
neither context variable is reset. -/
def exitCtx (excRaised : Bool) (st : BuildState) : ExitResult :=
  if excRaised then
    .raisedUnboundLocal st
  else
    let context := st.ctxStack.headD []
    let addList := st.pendStack.headD []
    .ok { ctxStack := st.ctxStack.tail, pendStack := st.pendStack.tail }
      addList (decide (context.length ≤ 1))

/-! ### Assembly finalization (`Realizer._finalize_assembly`,
`Structure._finalize_assembly`) -/

/-- The assembly error raised by `Realizer._finalize_assembly`
(`RealizerError`): its message names the realizer's symbol and the set of
expected-but-missing source symbols computed by `_link_error_msg`. -/
structure FinErr where
  sym : CSym
  missing : List CSym
deriving DecidableEq, Repr

/-- Modelled from the spec: `check_links(inputs)` of the external emitter and
updater capabilities accepts iff every expected source symbol has a
registered link (spec §3 invariant and §6 interface). -/
def checkLinksB (expd : List CSym) (inp : List CSym) : Bool :=
  expd.all (fun s => decide (s ∈ inp))

/-- Combined emitter-and-updater link check of
`Realizer._finalize_assembly`: `b = emitter.check_links(inputs); b &=
updater is None or updater.check_links(inputs)`. -/
def checkOKB (ee : List CSym) (ue : Option (List CSym)) (inp : List CSym) : Bool :=
  checkLinksB ee inp &&
    (match ue with | none => true | some l => checkLinksB l inp)

/-- The expected-but-missing set of `Realizer._link_error_msg`:
`(emitter.expected ∪ updater.expected) - inputs`. -/
def missingOf (ee : List CSym) (ue : Option (List CSym)) (inp : List CSym) :
    List CSym :=
  (ee ++ ue.getD []).filter (fun s => decide (s ∉ inp))

/-- Embedding of `Realizer._finalize_assembly` (the own-node check, which is
all that `_finalize_assembly` does on a leaf construct): succeed iff both
link checks accept, otherwise raise a `RealizerError` naming the realizer's
symbol and its missing expected symbols. -/
def checkR (r : Rlz) : Except FinErr Unit :=
  if checkOKB (emExpOf r) (upExpOf r) (inputsOf r) then .ok ()
  else .error ⟨symOf r, missingOf (emExpOf r) (upExpOf r) (inputsOf r)⟩

/-- Aggregation data of `Structure.reset_output`: the symbol-to-output
mapping over the members whose construct type meets the `Cycle` emitter's
`output` mask (`self.items(ctype=self.emitter.output)`). -/
def aggData (mask : Nat) (mem : List Rlz) : List (CSym × OutVal) :=
  (mem.filter (fun r => decide ((symOf r).ctype &&& mask ≠ 0))).map
    (fun r => (symOf r, outOf r))

/-- Embedding of `Structure.reset_output`: recompute the structure's own
output as its emitter's aggregate of current member outputs.  The `Cycle`
emitter's `emit(data)` is modelled from the spec as the nested mapping
itself ("the aggregate is a nested mapping from member symbol to member
output, not a reduction").  On a leaf construct this is the identity
(`reset_output` exists only on structures). -/
def resetOutput : Rlz → Rlz
  | .cns sy ee d ue inp o => .cns sy ee d ue inp o
  | .strc sy ee m ue inp _ mem =>
      .strc sy ee m ue inp (.trie (aggData m mem)) mem

/-- Second member loop of `Structure._finalize_assembly`: run the own-node
check of every member that is a leaf construct (a construct's
`_finalize_assembly` is `Realizer`'s and changes no state). -/
def checkCons : List Rlz → Except FinErr Unit
  | [] => .ok ()
  | r :: rs =>
      if isStrc r then checkCons rs
      else
        match checkR r with
        | .error e => .error e
        | .ok _ => checkCons rs

mutual
/-- Embedding of `_finalize_assembly`.  On a leaf construct: the own-node
check.  On a structure: finalize every member structure, then check every
member construct, then recompute the own output, then run the own-node
check. -/
def finalizeR : Rlz → Except FinErr Rlz
  | .cns sy ee d ue inp o =>
      match checkR (.cns sy ee d ue inp o) with
      | .error e => .error e
      | .ok _ => .ok (.cns sy ee d ue inp o)
  | .strc sy ee m ue inp o mem =>
      match finalizeStructs mem with
      | .error e => .error e
      | .ok mem1 =>
          match checkCons mem1 with
          | .error e => .error e
          | .ok _ =>
              let r1 := resetOutput (.strc sy ee m ue inp o mem1)
              match checkR r1 with
              | .error e => .error e
              | .ok _ => .ok r1
/-- First member loop of `Structure._finalize_assembly`: recursively
finalize every member that is itself a structure; leaf members pass through
unchanged. -/
def finalizeStructs : List Rlz → Except FinErr (List Rlz)
  | [] => .ok []
  | r :: rs =>
      if isStrc r then
        match finalizeR r with
        | .error e => .error e
        | .ok r1 =>
            match finalizeStructs rs with
            | .error e => .error e
            | .ok rs1 => .ok (r1 :: rs1)
      else
        match finalizeStructs rs with
        | .error e => .error e
        | .ok rs1 => .ok (r :: rs1)
end

mutual
/-- The pure output-recomputation a successful `_finalize_assembly`
performs: member structures are recomputed recursively, leaf members are
unchanged, and the structure's own output is reset bottom-up. -/
def recompute : Rlz → Rlz
  | .cns sy ee d ue inp o => .cns sy ee d ue inp o
  | .strc sy ee m ue inp o mem =>
      resetOutput (.strc sy ee m ue inp o (recomputeL mem))
/-- Pointwise `recompute` over a member list (structures only, like the
first loop of `Structure._finalize_assembly`). -/
def recomputeL : List Rlz → List Rlz
  | [] => []
  | r :: rs => (if isStrc r then recompute r else r) :: recomputeL rs
end

mutual
/-- Deep link-completeness: the own-node link check passes here and in every
descendant. -/
def DeepOK : Rlz → Prop
  | .cns _ ee _ ue inp _ => checkOKB ee ue inp = true
  | .strc _ ee _ ue inp _ mem => checkOKB ee ue inp = true ∧ DeepOKL mem
/-- Deep link-completeness over a member list. -/
def DeepOKL : List Rlz → Prop
  | [] => True
  | r :: rs => DeepOK r ∧ DeepOKL rs
end

mutual
/-- All nodes of a realizer tree: the realizer itself and, recursively, all
nodes of its members. -/
def allNodes : Rlz → List Rlz
  | .cns sy ee d ue inp o => [.cns sy ee d ue inp o]
  | .strc sy ee m ue inp o mem => .strc sy ee m ue inp o mem :: allNodesL mem
/-- All nodes of a member list. -/
def allNodesL : List Rlz → List Rlz
  | [] => []
  | r :: rs => allNodes r ++ allNodesL rs
end

/-! ### Output clearing (`Structure.clear_outputs`, `Structure.reset_output`,
`Realizer.output` deleter) -/

mutual
/-- Embedding of `Structure.clear_outputs` (its action on an arbitrary
member): a member structure is cleared recursively and then resets its own
output; a leaf member's output is deleted, which reverts it to the
emitter's default `emitter.emit()`. -/
def clearOutputs : Rlz → Rlz
  | .cns sy ee d ue inp _ => .cns sy ee d ue inp d
  | .strc sy ee m ue inp o mem =>
      resetOutput (.strc sy ee m ue inp o (clearL mem))
/-- Pointwise clearing of a member list. -/
def clearL : List Rlz → List Rlz
  | [] => []
  | r :: rs => clearOutputs r :: clearL rs
end

mutual
/-- Every descendant leaf construct carries its emitter's default output. -/
def ConsDefaults : Rlz → Prop
  | .cns _ _ d _ _ o => o = d
  | .strc _ _ _ _ _ _ mem => ConsDefaultsL mem
/-- `ConsDefaults` over a member list. -/
def ConsDefaultsL : List Rlz → Prop
  | [] => True
  | r :: rs => ConsDefaults r ∧ ConsDefaultsL rs
end

mutual
/-- Every structure node's cached output equals its emitter's aggregate of
its current member outputs (bottom-up consistency). -/
def AggConsistent : Rlz → Prop
  | .cns _ _ _ _ _ _ => True
  | .strc _ _ m _ _ o mem => o = .trie (aggData m mem) ∧ AggConsistentL mem
/-- `AggConsistent` over a member list. -/
def AggConsistentL : List Rlz → Prop
  | [] => True
  | r :: rs => AggConsistent r ∧ AggConsistentL rs
end

/-! ### Update ordering (`Structure._update`, `Construct._update`)

`_update` is modelled by the trace of observable calls it makes:
`emUpd s` is `propagator.update(...)` of the construct named `s`, `pullUpd
s` is a non-trivial `_pull_update_data` (only performed when an updater is
attached), and `updCall s` is the invocation of the updater attached to
`s`. -/

/-- Observable events of the update phase. -/
inductive Ev where
| emUpd : CSym → Ev
| pullUpd : CSym → Ev
| updCall : CSym → Ev
deriving DecidableEq, Repr

mutual
/-- Trace of `_update`.  A leaf construct runs its propagator's bookkeeping
hook, pulls updater data and invokes its updater if attached.  A structure
pulls its own updater data, updates every member structure, then every
member construct, then invokes its own updater if attached. -/
def updTrace : Rlz → List Ev
  | .cns sy _ _ ue _ _ =>
      [Ev.emUpd sy] ++
        (match ue with
         | some _ => [Ev.pullUpd sy, Ev.updCall sy]
         | none => [])
  | .strc sy _ _ ue _ _ mem =>
      (match ue with | some _ => [Ev.pullUpd sy] | none => []) ++
        updTraceStr mem ++ updTraceCns mem ++
        (match ue with | some _ => [Ev.updCall sy] | none => [])
/-- First member loop of `Structure._update`: member structures only. -/
def updTraceStr : List Rlz → List Ev
  | [] => []
  | r :: rs => (if isStrc r then updTrace r else []) ++ updTraceStr rs
/-- Second member loop of `Structure._update`: member constructs only. -/
def updTraceCns : List Rlz → List Ev
  | [] => []
  | r :: rs => (if isStrc r then [] else updTrace r) ++ updTraceCns rs
end

/-! ### The base link-table protocol with explicit callbacks
(`Realizer._offer`, `Realizer._accepts`)

For the idempotence/overwrite behaviour of `_offer` the stored callback
matters, so the base `Realizer` state is modelled once more with an explicit
callback value per link (callbacks are identified by an opaque `Nat`). -/

/-- Base realizer state: the two expectation sets and the input-link
table. -/
structure Rlz0 where
  emExpected : List CSym
  upExpected : Option (List CSym)
  inputs : List (CSym × Nat)
deriving DecidableEq, Repr

/-- `Realizer._accepts` on the base state. -/
def accepts0 (r : Rlz0) (s : CSym) : Bool :=
  acceptsL r.emExpected r.upExpected s

/-- Embedding of `Realizer._offer` with its callback argument: store the
pull callback under the source symbol iff the source is accepted
(`self._inputs[construct] = callback`). -/
def offer0 (r : Rlz0) (s : CSym) (f : Nat) : Rlz0 :=
  if accepts0 r s then { r with inputs := insA r.inputs s f } else r

/-! ### Association-list lemmas -/

theorem lookupA_insA_self {κ α : Type} [DecidableEq κ]
    (l : List (κ × α)) (k : κ) (v : α) : lookupA (insA l k v) k = some v := by
  induction l with
  | nil => simp [insA, lookupA]
  | cons p t ih =>
      obtain ⟨k', v'⟩ := p
      by_cases h : k' = k
      · subst h; simp [insA, lookupA]
      · simp [insA, lookupA, h, ih]

theorem lookupA_eq_none_iff {κ α : Type} [DecidableEq κ]
    (l : List (κ × α)) (k : κ) :
    lookupA l k = none ↔ k ∉ l.map Prod.fst := by
  induction l with
  | nil => simp [lookupA]
  | cons p t ih =>
      obtain ⟨k', v'⟩ := p
      by_cases h : k' = k
      · subst h; simp [lookupA]
      · simp [lookupA, h, ih, Ne.symm h]

theorem keys_insA {κ α : Type} [DecidableEq κ]
    (l : List (κ × α)) (k : κ) (v : α) :
    (insA l k v).map Prod.fst =
      if (lookupA l k).isSome then l.map Prod.fst
      else l.map Prod.fst ++ [k] := by
  induction l with
  | nil => simp [insA, lookupA]
  | cons p t ih =>
      obtain ⟨k', v'⟩ := p
      by_cases h : k' = k
      · subst h; simp [insA, lookupA]
      · simp only [insA, lookupA, h, if_false, List.map_cons]
        rw [ih]
        split <;> simp

theorem lookupA_append {κ α : Type} [DecidableEq κ]
    (l₁ l₂ : List (κ × α)) (k : κ) :
    lookupA (l₁ ++ l₂) k =
      match lookupA l₁ k with
      | some v => some v
      | none => lookupA l₂ k := by
  induction l₁ with
  | nil => simp [lookupA]
  | cons p t ih =>
      obtain ⟨k', v'⟩ := p
      by_cases h : k' = k
      · simp [lookupA, h]
      · simp [lookupA, h, ih]

/-! ### Claim C1 (`Structure.__exit__` on an abnormal exit) -/

/-- Claim C1 (status: code bug).  The claim states that when an exception is
raised inside a Structure build scope, the exit path attaches nothing,
finalizes nothing, restores the build-context stacks, and raises no new
error.  On the embedded source the abnormal path of `__exit__` instead
raises `UnboundLocalError` at the unconditional `print(add_list)` (the name
is bound only on the no-exception branch) before either `ContextVar.reset`
call runs, so the build-context stacks are left exactly as they were inside
the scope. -/
theorem exit_abnormal_raises_unbound_local (st : BuildState) :
    exitCtx true st = .raisedUnboundLocal st := rfl

/-! ### Claim C2 (`Rule.__init__` precondition violations) -/

/-- Claim C2 (status: code bug).  The claim states that a `Rule` constructor
call whose `weights` contain a non-positive weight (or a key outside the
conditions) raises an exception.  In the source both precondition checks
merely construct a `ValueError` without raising it; for the concrete call
`Rule(c, x, y, weights={x: -1})` (here `c = 0`, `x = 1`, `y = 2`) even the
postcondition asserts pass, so the constructor returns normally with the
negative weight stored. -/
theorem rule_init_nonpositive_weight_not_rejected :
    ruleInit 0 [1, 2] (some [(1, -1)]) = .ok ⟨0, [(1, -1), (2, 1)], 0⟩ := by
  norm_num [ruleInit, extendW, valSum, keysEqB, lookupA]

/-! ### Claim C10 (`Rules.__setitem__` drops wrong-typed rules silently) -/

/-- Claim C10: assigning through `Rules.__setitem__` a value that passes the
`max_conds` validation but is not an instance of the database's configured
rule type returns without raising (the `TypeError` of the source is
constructed but never raised) and leaves the database unchanged. -/
theorem setitem_wrong_type_silently_dropped :
    ∀ (db : Rules) (k : RSym) (v : RuleF),
      db.validateRuleForm v = .ok () → v.ty ≠ db.ruleTy →
      Rules.setitem db k v = .ok db := by
  intro db k v h1 h2
  simp [Rules.setitem, h1, h2]

/-- Witness for claim C10: a concretely wrong-typed rule form (class tag 1
against a database configured with tag 0) is dropped without an error. -/
theorem setitem_wrong_type_silently_dropped_witness :
    Rules.setitem ⟨[], none, 0, [], []⟩ 3 ⟨0, [], 1⟩ = .ok ⟨[], none, 0, [], []⟩ :=
  setitem_wrong_type_silently_dropped ⟨[], none, 0, [], []⟩ 3 ⟨0, [], 1⟩
    (by rfl) (by decide)

/-! ### Claim C9 (`Realizer._offer` / `Realizer._accepts`) -/

/-- Claim C9: `_offer(s, f)` stores an entry for `s` in the input-link table
iff the emitter or the attached updater expects `s`; when `s` is not
accepted the table is unchanged; a second offer for the same symbol
overwrites the stored callback (last offer wins); and offering never
introduces a duplicate key, so the table keeps at most one entry per
symbol. -/
theorem offer_stores_iff_accepted :
    (∀ (r : Rlz0) (s : CSym) (f : Nat),
      accepts0 r s = false → offer0 r s f = r) ∧
    (∀ (r : Rlz0) (s : CSym) (f : Nat),
      accepts0 r s = true → lookupA (offer0 r s f).inputs s = some f) ∧
    (∀ (r : Rlz0) (s : CSym) (f : Nat), lookupA r.inputs s = none →
      ((lookupA (offer0 r s f).inputs s).isSome ↔ accepts0 r s = true)) ∧
    (∀ (r : Rlz0) (s : CSym) (f g : Nat), accepts0 r s = true →
      lookupA (offer0 (offer0 r s f) s g).inputs s = some g) ∧
    (∀ (r : Rlz0) (s : CSym) (f : Nat), (r.inputs.map Prod.fst).Nodup →
      ((offer0 r s f).inputs.map Prod.fst).Nodup) := by
  refine ⟨?_, ?_, ?_, ?_, ?_⟩
  · intro r s f h
    simp [offer0, h]
  · intro r s f h
    simp [offer0, h, lookupA_insA_self]
  · intro r s f h
    by_cases ha : accepts0 r s = true
    · simp [offer0, ha, lookupA_insA_self]
    · simp only [Bool.not_eq_true] at ha
      simp [offer0, ha, h]
  · intro r s f g h
    have h1 : offer0 r s f = { r with inputs := insA r.inputs s f } := by
      simp [offer0, h]
    have h2 : accepts0 { r with inputs := insA r.inputs s f } s = true := h
    rw [h1]
    simp [offer0, h2, lookupA_insA_self]
  · intro r s f h
    by_cases ha : accepts0 r s = true
    · simp only [offer0, ha, if_true]
      rw [keys_insA]
      split
      · exact h
      · next hno =>
          rw [List.nodup_append]
          refine ⟨h, List.nodup_singleton s, ?_⟩
          intro a ha' hb
          simp only [List.mem_singleton] at hb
          subst hb
          have hn : lookupA r.inputs a = none := by
            cases hl : lookupA r.inputs a with
            | none => rfl
            | some v => simp [hl] at hno
          exact (lookupA_eq_none_iff _ _).mp hn ha'
    · simp only [Bool.not_eq_true] at ha
      simp [offer0, ha, h]

/-- Witness for claim C9: an accepted offer is stored under its symbol. -/
theorem offer_stores_iff_accepted_witness :
    lookupA (offer0 ⟨[⟨1, 5⟩], none, []⟩ ⟨1, 5⟩ 3).inputs ⟨1, 5⟩ = some 3 :=
  offer_stores_iff_accepted.2.1 ⟨[⟨1, 5⟩], none, []⟩ ⟨1, 5⟩ 3 (by decide)

/-! ### Claim C5 (update ordering in `Structure._update`) -/

/-- Claim C5: for a two-level structure with one member structure `s` and
one member construct `c` (in either registry order), the update trace is the
structure's own update-data pull, then the entire update of `s` (including
the updates of all of `s`'s own members), then the entire update of `c`,
then — only when an updater is attached — the invocation of the parent's
own updater.  In particular `s`'s update completes strictly before `c`'s
update, and the parent updater runs only after every member's update. -/
theorem update_structure_member_before_construct_member :
    ∀ (sy : CSym) (ee : List CSym) (m : Nat) (ue : Option (List CSym))
      (inp : List CSym) (o : OutVal) (s c : Rlz) (mem : List Rlz),
      isStrc s = true → isStrc c = false →
      (mem = [s, c] ∨ mem = [c, s]) →
      updTrace (.strc sy ee m ue inp o mem) =
        (match ue with | some _ => [Ev.pullUpd sy] | none => []) ++
          updTrace s ++ updTrace c ++
          (match ue with | some _ => [Ev.updCall sy] | none => []) := by
  intro sy ee m ue inp o s c mem hs hc hmem
  rcases hmem with h | h <;> subst h <;> cases ue <;>
    simp [updTrace, updTraceStr, updTraceCns, hs, hc]

/-- Witness for claim C5 at a concrete two-level structure. -/
theorem update_structure_member_before_construct_member_witness :
    updTrace (.strc ⟨4, 2⟩ [] 3 (some []) [] (.trie [])
        [.strc ⟨4, 3⟩ [] 3 (some []) [] (.trie [])
           [.cns ⟨1, 0⟩ [] (.num 5) none [] (.num 5)],
         .cns ⟨2, 1⟩ [] (.num 7) none [] (.num 7)]) =
      (match (some [] : Option (List CSym)) with
        | some _ => [Ev.pullUpd ⟨4, 2⟩] | none => []) ++
        updTrace (.strc ⟨4, 3⟩ [] 3 (some []) [] (.trie [])
          [.cns ⟨1, 0⟩ [] (.num 5) none [] (.num 5)]) ++
        updTrace (.cns ⟨2, 1⟩ [] (.num 7) none [] (.num 7)) ++
        (match (some [] : Option (List CSym)) with
          | some _ => [Ev.updCall ⟨4, 2⟩] | none => []) :=
  update_structure_member_before_construct_member ⟨4, 2⟩ [] 3 (some []) []
    (.trie [])
    (.strc ⟨4, 3⟩ [] 3 (some []) [] (.trie [])
      [.cns ⟨1, 0⟩ [] (.num 5) none [] (.num 5)])
    (.cns ⟨2, 1⟩ [] (.num 7) none [] (.num 7)) _ (by rfl) (by rfl) (Or.inl rfl)

/-! ### Claim C6 (`Structure.clear_outputs`) -/

mutual
/-- After clearing, every descendant leaf construct carries its default. -/
theorem clearOutputs_defaults : ∀ r : Rlz, ConsDefaults (clearOutputs r)
  | .cns sy ee d ue inp o => by
      simp [clearOutputs, ConsDefaults]
  | .strc sy ee m ue inp o mem => by
      have h := clearL_defaults mem
      simpa [clearOutputs, resetOutput, ConsDefaults] using h
/-- After clearing, every construct in a member list carries its default. -/
theorem clearL_defaults : ∀ l : List Rlz, ConsDefaultsL (clearL l)
  | [] => by simp [clearL, ConsDefaultsL]
  | r :: rs => by
      have h1 := clearOutputs_defaults r
      have h2 := clearL_defaults rs
      simpa [clearL, ConsDefaultsL] using ⟨h1, h2⟩
end

mutual
/-- After clearing, every structure node's output is its emitter's aggregate
of its (just cleared) member outputs. -/
theorem clearOutputs_agg : ∀ r : Rlz, AggConsistent (clearOutputs r)
  | .cns sy ee d ue inp o => by
      simp [clearOutputs, AggConsistent]
  | .strc sy ee m ue inp o mem => by
      have h := clearL_agg mem
      simpa [clearOutputs, resetOutput, AggConsistent] using h
/-- `clearOutputs_agg` over a member list. -/
theorem clearL_agg : ∀ l : List Rlz, AggConsistentL (clearL l)
  | [] => by simp [clearL, AggConsistentL]
  | r :: rs => by
      have h1 := clearOutputs_agg r
      have h2 := clearL_agg rs
      simpa [clearL, AggConsistentL] using ⟨h1, h2⟩
end

/-- Claim C6: after `clear_outputs()` (which ends in `reset_output()`), with
no propagation in between, every descendant construct's cached output equals
its emitter's declared default (`emitter.emit()` with no data), and every
structure's own output — the cleared structure itself included — equals its
emitter's aggregate over the member outputs, recomputed bottom-up. -/
theorem clear_outputs_resets_to_defaults :
    ∀ r : Rlz, ConsDefaults (clearOutputs r) ∧ AggConsistent (clearOutputs r) :=
  fun r => ⟨clearOutputs_defaults r, clearOutputs_agg r⟩

/-! ### Claim C7 (`Rule` weight completion, normalization and strength) -/

theorem extendW_preserves (conds : List Chunk) :
    ∀ (ws : List (Chunk × ℚ)) (v : ℚ) (c : Chunk) (x : ℚ),
      lookupA ws c = some x → lookupA (extendW ws conds v) c = some x := by
  induction conds with
  | nil => intro ws v c x h; simpa [extendW] using h
  | cons c' t ih =>
      intro ws v c x h
      simp only [extendW]
      split
      · exact ih ws v c x h
      · apply ih
        rw [lookupA_append]
        simp [h]

theorem extendW_fills (conds : List Chunk) :
    ∀ (ws : List (Chunk × ℚ)) (v : ℚ) (c : Chunk),
      c ∈ conds → lookupA ws c = none →
      lookupA (extendW ws conds v) c = some v := by
  induction conds with
  | nil => intro ws v c hc _; exact absurd hc (List.not_mem_nil c)
  | cons c' t ih =>
      intro ws v c hc h
      simp only [extendW]
      rcases List.mem_cons.mp hc with he | ht
      · subst he
        rw [if_neg (by simp [h])]
        apply extendW_preserves
        rw [lookupA_append]
        simp [h, lookupA]
      · split
        · exact ih ws v c ht h
        · by_cases hcc : c' = c
          · subst hcc
            apply extendW_preserves
            rw [lookupA_append]
            simp [h, lookupA]
          · apply ih _ _ _ ht
            rw [lookupA_append]
            simp [h, lookupA, hcc]

/-- Claim C7: for a rule built with conclusion `c`, conditions `x, y` and
explicit weights `{x: 2}` only, the unweighted condition `y` is
auto-assigned weight 1, the sum 3 exceeds 1 so the weights renormalize to
`x = 2/3, y = 1/3`, and the rule strength on unit condition strengths is
exactly 1.  In general every condition missing from the explicit weights is
extended with weight 1 before normalization, and a successfully constructed
rule's stored weights sum to at most 1. -/
theorem rule_weights_normalized :
    ruleInit 0 [1, 2] (some [(1, 2)]) = .ok ⟨0, [(1, 2/3), (2, 1/3)], 0⟩ ∧
    strength ⟨0, [(1, 2/3), (2, 1/3)], 0⟩ [(1, 1), (2, 1)] = 1 ∧
    (∀ (ws : List (Chunk × ℚ)) (conds : List Chunk) (c : Chunk),
      c ∈ conds → lookupA ws c = none →
      lookupA (extendW ws conds 1) c = some 1) ∧
    (∀ (conc : Chunk) (conds : List Chunk) (w : Option (List (Chunk × ℚ)))
        (r : RuleF), ruleInit conc conds w = .ok r → valSum r.weights ≤ 1) := by
  refine ⟨?_, ?_, ?_, ?_⟩
  · norm_num [ruleInit, extendW, valSum, keysEqB, lookupA]
  · norm_num [strength, lookupA, List.filterMap_cons, List.filterMap_nil]
  · intro ws conds c hc h
    exact extendW_fills conds ws 1 c hc h
  · intro conc conds w r h
    simp only [ruleInit] at h
    split at h <;> split at h <;> (try split at h) <;>
      first
        | exact Except.noConfusion h
        | (rename_i hle
           simp only [Except.ok.injEq] at h
           subst h
           exact hle)

/-- Witness for claim C7: the weight-completion clause at a concrete input
(condition 2 is unweighted and receives weight 1), and the sum bound at the
concretely constructed scenario rule. -/
theorem rule_weights_normalized_witness :
    lookupA (extendW [(1, (2 : ℚ))] [1, 2] 1) 2 = some 1 ∧
    valSum (RuleF.mk 0 [(1, 2/3), (2, 1/3)] 0).weights ≤ 1 :=
  ⟨rule_weights_normalized.2.2.1 [(1, (2 : ℚ))] [1, 2] 2 (by decide) (by rfl),
   rule_weights_normalized.2.2.2 0 [1, 2] (some [(1, 2)])
     ⟨0, [(1, 2/3), (2, 1/3)], 0⟩ rule_weights_normalized.1⟩

/-! ### Claim C8 (`Rules` promise protocol) -/

theorem exbind_ok {ε α β : Type} (a : α) (f : α → Except ε β) :
    (Except.ok a >>= f) = f a := rfl

theorem exbind_error {ε α β : Type} (e : ε) (f : α → Except ε β) :
    ((Except.error e : Except ε α) >>= f) = .error e := rfl

theorem setitem_delPromises (db db' : Rules) (k : RSym) (v : RuleF)
    (h : Rules.setitem db k v = .ok db') :
    db'.delPromises = db.delPromises := by
  unfold Rules.setitem at h
  split at h
  · exact Except.noConfusion h
  · split at h <;> (simp only [Except.ok.injEq] at h; subst h; rfl)

theorem foldlM_setitem_delPromises :
    ∀ (l : List (RSym × RuleF)) (db db' : Rules),
      l.foldlM (fun acc p => acc.setitem p.1 p.2) db = .ok db' →
      db'.delPromises = db.delPromises := by
  intro l
  induction l with
  | nil =>
      intro db db' h
      simp only [List.foldlM_nil] at h
      cases h
      rfl
  | cons p t ih =>
      intro db db' h
      simp only [List.foldlM_cons] at h
      cases hs : Rules.setitem db p.1 p.2 with
      | error e =>
          rw [hs] at h
          exact Except.noConfusion h
      | ok db1 =>
          rw [hs] at h
          rw [ih db1 db' h, setitem_delPromises db db1 p.1 p.2 hs]

/-- Claim C8: on a database with no outstanding promises, `request_add(r,
form)` followed by `step()` installs `form` under `r` and leaves both
promise sets empty; a second `request_add` for the same symbol before a step
raises `ValueError` (the promise sets survive unchanged since the error is
raised before any mutation); `request_del` for a symbol absent from the
database raises `ValueError`; after any successful `step()` both promise
sets are empty; and promised deletions are applied before promised
additions, so a promised addition for a symbol whose entry is also being
deleted ends up installed, not deleted. -/
theorem rules_promise_protocol :
    (∀ (dt : List (RSym × RuleF)) (mc : Option Nat) (ty : Nat) (r : RSym)
        (form : RuleF),
      Rules.validateRuleForm ⟨dt, mc, ty, [], []⟩ form = .ok () →
      form.ty = ty →
      ∃ db₁ db₂,
        Rules.requestAdd ⟨dt, mc, ty, [], []⟩ r form = .ok db₁ ∧
        Rules.step db₁ = .ok db₂ ∧
        lookupA db₂.data r = some form ∧
        db₂.addPromises = [] ∧ db₂.delPromises = []) ∧
    (∀ (db : Rules) (r : RSym) (form form₂ : RuleF) (db₁ : Rules),
      Rules.requestAdd db r form = .ok db₁ →
      Rules.requestAdd db₁ r form₂ = .error .valueError) ∧
    (∀ (db : Rules) (r : RSym), lookupA db.data r = none →
      Rules.requestDel db r = .error .valueError) ∧
    (∀ (db db₂ : Rules), Rules.step db = .ok db₂ →
      db₂.addPromises = [] ∧ db₂.delPromises = []) ∧
    (∀ (dt : List (RSym × RuleF)) (mc : Option Nat) (ty : Nat) (r : RSym)
        (g form : RuleF),
      lookupA dt r = some g →
      Rules.validateRuleForm ⟨dt, mc, ty, [(r, form)], [r]⟩ form = .ok () →
      form.ty = ty →
      ∃ db₂, Rules.step ⟨dt, mc, ty, [(r, form)], [r]⟩ = .ok db₂ ∧
        lookupA db₂.data r = some form) := by
  refine ⟨?_, ?_, ?_, ?_, ?_⟩
  · intro dt mc ty r form h3 h4
    refine ⟨⟨dt, mc, ty, [(r, form)], []⟩,
            ⟨insA dt r form, mc, ty, [], []⟩,
            rfl, ?_, lookupA_insA_self _ _ _, rfl, rfl⟩
    cases mc with
    | none =>
        simp [Rules.step, Rules.setitem, Rules.validateRuleForm, h4,
          exbind_ok, exbind_error]
    | some m =>
        simp only [Rules.validateRuleForm] at h3
        split at h3
        · exact Except.noConfusion h3
        · rename_i hm
          simp [Rules.step, Rules.setitem, Rules.validateRuleForm, hm, h4,
            exbind_ok, exbind_error]
  · intro db r form form₂ db₁ h
    unfold Rules.requestAdd at h
    split at h
    · exact Except.noConfusion h
    · simp only [Except.ok.injEq] at h
      subst h
      simp [Rules.requestAdd, lookupA_insA_self]
  · intro db r h
    unfold Rules.requestDel
    split
    · rfl
    · simp [h]
  · intro db db₂ h
    unfold Rules.step at h
    cases h1 : db.delPromises.foldlM (fun acc r => acc.delitem r) db with
    | error e =>
        rw [h1] at h
        exact Except.noConfusion h
    | ok db1 =>
        rw [h1] at h
        simp only [exbind_ok] at h
        cases h2 : db.addPromises.foldlM (fun acc p => acc.setitem p.1 p.2)
            { db1 with delPromises := [] } with
        | error e =>
            rw [h2] at h
            simp only [exbind_error] at h
            exact Except.noConfusion h
        | ok db3 =>
            rw [h2] at h
            simp only [exbind_ok] at h
            cases h
            refine ⟨rfl, ?_⟩
            have hd := foldlM_setitem_delPromises db.addPromises
              { db1 with delPromises := [] } db3 h2
            simpa using hd
  · intro dt mc ty r g form hg h3 h4
    refine ⟨⟨insA (eraseA dt r) r form, mc, ty, [], []⟩, ?_,
            lookupA_insA_self _ _ _⟩
    cases mc with
    | none =>
        simp [Rules.step, Rules.setitem, Rules.delitem,
          Rules.validateRuleForm, hg, h4, exbind_ok, exbind_error]
    | some m =>
        simp only [Rules.validateRuleForm] at h3
        split at h3
        · exact Except.noConfusion h3
        · rename_i hm
          simp [Rules.step, Rules.setitem, Rules.delitem,
            Rules.validateRuleForm, hg, hm, h4, exbind_ok, exbind_error]

/-- Witness for claim C8: the request-then-step scenario at a concrete empty
database installs the requested rule. -/
theorem rules_promise_protocol_witness :
    ∃ db₁ db₂,
      Rules.requestAdd ⟨[], none, 0, [], []⟩ 3 ⟨0, [(1, 1)], 0⟩ = .ok db₁ ∧
      Rules.step db₁ = .ok db₂ ∧
      lookupA db₂.data 3 = some ⟨0, [(1, 1)], 0⟩ ∧
      db₂.addPromises = [] ∧ db₂.delPromises = [] :=
  rules_promise_protocol.1 [] none 0 3 ⟨0, [(1, 1)], 0⟩ (by rfl) (by rfl)

/-! ### Claim C4 (symmetric, order-independent link wiring) -/

theorem symOf_offerR (r : Rlz) (s : CSym) : symOf (offerR r s) = symOf r := by
  cases r <;> simp [offerR, symOf]

theorem syms_map_offer (l : List Rlz) (s : CSym) :
    (l.map (fun m => offerR m s)).map symOf = l.map symOf := by
  rw [List.map_map]
  apply List.map_congr_left
  intro m _
  exact symOf_offerR m s

theorem symOf_foldl_offer (l : List Rlz) (r : Rlz) :
    symOf (l.foldl (fun acc m => offerR acc (symOf m)) r) = symOf r := by
  induction l generalizing r with
  | nil => rfl
  | cons x t ih => rw [List.foldl_cons, ih, symOf_offerR]

theorem findBySym_cons_self (x : Rlz) (l : List Rlz) (s : CSym)
    (h : symOf x = s) : findBySym (x :: l) s = some x := by
  unfold findBySym
  rw [List.find?_cons_of_pos]
  simp [h]

theorem findBySym_cons_ne (x : Rlz) (l : List Rlz) (s : CSym)
    (h : symOf x ≠ s) : findBySym (x :: l) s = findBySym l s := by
  unfold findBySym
  rw [List.find?_cons_of_neg]
  simp [h]

theorem findBySym_append_none (l₁ l₂ : List Rlz) (s : CSym)
    (h : s ∉ l₁.map symOf) : findBySym (l₁ ++ l₂) s = findBySym l₂ s := by
  induction l₁ with
  | nil => rfl
  | cons x t ih =>
      simp only [List.map_cons, List.mem_cons, not_or] at h
      rw [List.cons_append, findBySym_cons_ne]
      · exact ih h.2
      · exact fun he => h.1 he.symm

theorem insertMember_fresh (l : List Rlz) (r : Rlz)
    (h : symOf r ∉ l.map symOf) : insertMember l r = l ++ [r] := by
  have hc : ¬(l.any (fun m => decide (symOf m = symOf r)) = true) := by
    simp only [List.any_eq_true, decide_eq_true_eq]
    rintro ⟨m, hm, he⟩
    exact h (List.mem_map.mpr ⟨m, hm, he⟩)
  unfold insertMember
  rw [if_neg hc]

theorem filter_fresh (l : List Rlz) (r : Rlz)
    (h : symOf r ∉ l.map symOf) :
    (l ++ [r]).filter (fun m => decide (symOf m ≠ symOf r)) = l := by
  rw [List.filter_append]
  have h1 : List.filter (fun m => decide (symOf m ≠ symOf r)) [r] = [] := by
    simp
  rw [h1, List.append_nil]
  apply List.filter_eq_self.mpr
  intro m hm
  simp only [decide_eq_true_eq]
  exact fun he => h (List.mem_map.mpr ⟨m, hm, he⟩)

theorem findBySym_append_fresh (l : List Rlz) (r : Rlz)
    (h : symOf r ∉ l.map symOf) :
    findBySym (l ++ [r]) (symOf r) = some r := by
  rw [findBySym_append_none l [r] (symOf r) h]
  exact findBySym_cons_self r [] (symOf r) rfl

theorem addOne_fresh (l : List Rlz) (r : Rlz)
    (h : symOf r ∉ l.map symOf) :
    addOne l r =
      l.map (fun m => offerR m (symOf r)) ++
        [l.foldl (fun acc m => offerR acc (symOf m)) r] := by
  unfold addOne
  rw [insertMember_fresh l r h]
  unfold updateLinks
  rw [findBySym_append_fresh l r h]
  dsimp only
  rw [filter_fresh l r h, List.map_append]
  congr 1
  · apply List.map_congr_left
    intro m hm
    rw [if_neg]
    exact fun he => h (List.mem_map.mpr ⟨m, hm, he⟩)
  · simp

theorem addAll_pair_comm (mem : List Rlz) (A B : Rlz)
    (hA : symOf A ∉ mem.map symOf) (hB : symOf B ∉ mem.map symOf)
    (hAB : symOf A ≠ symOf B) :
    findBySym (addAll mem [A, B]) (symOf A)
      = findBySym (addAll mem [B, A]) (symOf A) ∧
    findBySym (addAll mem [A, B]) (symOf B)
      = findBySym (addAll mem [B, A]) (symOf B) := by
  have hA1 := symOf_foldl_offer mem A
  have hB1 := symOf_foldl_offer mem B
  have hfB : symOf B ∉ (addOne mem A).map symOf := by
    rw [addOne_fresh mem A hA]
    simp only [List.map_append, syms_map_offer, List.map_cons, List.map_nil,
      hA1, List.mem_append, List.mem_cons, List.not_mem_nil, or_false]
    rintro (hin | he)
    · exact hB hin
    · exact hAB he.symm
  have hfA : symOf A ∉ (addOne mem B).map symOf := by
    rw [addOne_fresh mem B hB]
    simp only [List.map_append, syms_map_offer, List.map_cons, List.map_nil,
      hB1, List.mem_append, List.mem_cons, List.not_mem_nil, or_false]
    rintro (hin | he)
    · exact hA hin
    · exact hAB he
  have e1 : addAll mem [A, B] =
      ((mem.map (fun m => offerR m (symOf A))).map
          (fun m => offerR m (symOf B)) ++
        [offerR (mem.foldl (fun acc m => offerR acc (symOf m)) A) (symOf B)]) ++
        [offerR (mem.foldl (fun acc m => offerR acc (symOf m)) B) (symOf A)] := by
    show addOne (addOne mem A) B = _
    rw [addOne_fresh _ B hfB, addOne_fresh mem A hA]
    rw [List.map_append, List.map_cons, List.map_nil, List.foldl_append,
      List.foldl_cons, List.foldl_nil, List.foldl_map]
    rw [List.foldl_ext (fun acc m => offerR acc (symOf (offerR m (symOf A))))
      (fun acc m => offerR acc (symOf m)) B
      (fun acc m _ => by simp only [symOf_offerR])]
    rw [hA1]
  have e2 : addAll mem [B, A] =
      ((mem.map (fun m => offerR m (symOf B))).map
          (fun m => offerR m (symOf A)) ++
        [offerR (mem.foldl (fun acc m => offerR acc (symOf m)) B) (symOf A)]) ++
        [offerR (mem.foldl (fun acc m => offerR acc (symOf m)) A) (symOf B)] := by
    show addOne (addOne mem B) A = _
    rw [addOne_fresh _ A hfA, addOne_fresh mem B hB]
    rw [List.map_append, List.map_cons, List.map_nil, List.foldl_append,
      List.foldl_cons, List.foldl_nil, List.foldl_map]
    rw [List.foldl_ext (fun acc m => offerR acc (symOf (offerR m (symOf B))))
      (fun acc m => offerR acc (symOf m)) A
      (fun acc m _ => by simp only [symOf_offerR])]
    rw [hB1]
  have hP1 : symOf A ∉
      ((mem.map (fun m => offerR m (symOf A))).map
        (fun m => offerR m (symOf B))).map symOf := by
    rw [syms_map_offer, syms_map_offer]
    exact hA
  have hP1b : symOf B ∉
      ((mem.map (fun m => offerR m (symOf A))).map
        (fun m => offerR m (symOf B))).map symOf := by
    rw [syms_map_offer, syms_map_offer]
    exact hB
  have hP2 : symOf A ∉
      ((mem.map (fun m => offerR m (symOf B))).map
        (fun m => offerR m (symOf A))).map symOf := by
    rw [syms_map_offer, syms_map_offer]
    exact hA
  have hP2b : symOf B ∉
      ((mem.map (fun m => offerR m (symOf B))).map
        (fun m => offerR m (symOf A))).map symOf := by
    rw [syms_map_offer, syms_map_offer]
    exact hB
  have hsAB : symOf (offerR (mem.foldl
      (fun acc m => offerR acc (symOf m)) A) (symOf B)) = symOf A := by
    rw [symOf_offerR, hA1]
  have hsBA : symOf (offerR (mem.foldl
      (fun acc m => offerR acc (symOf m)) B) (symOf A)) = symOf B := by
    rw [symOf_offerR, hB1]
  constructor
  · rw [e1, e2, List.append_assoc, List.append_assoc,
      findBySym_append_none _ _ _ hP1, findBySym_append_none _ _ _ hP2,
      List.singleton_append, List.singleton_append,
      findBySym_cons_self _ _ _ hsAB,
      findBySym_cons_ne _ _ _ (by rw [hsBA]; exact (Ne.symm hAB)),
      findBySym_cons_self _ _ _ hsAB]
  · rw [e1, e2, List.append_assoc, List.append_assoc,
      findBySym_append_none _ _ _ hP1b, findBySym_append_none _ _ _ hP2b,
      List.singleton_append, List.singleton_append,
      findBySym_cons_ne _ _ _ (by rw [hsAB]; exact hAB),
      findBySym_cons_self _ _ _ hsBA,
      findBySym_cons_self _ _ _ hsBA]

/-- Claim C4: adding two mutually accepting realizers `A` then `B` to a
structure produces the same final link state as adding `B` then `A`: the
structure's own input-link table is untouched either way, and the member
stored under `A`'s symbol (resp. `B`'s symbol) is identical — input-link
tables included — in both insertion orders, for any pre-existing member
registry not already containing those symbols. -/
theorem add_link_wiring_order_independent :
    ∀ (sy : CSym) (ee : List CSym) (mk : Nat) (ue : Option (List CSym))
      (inp : List CSym) (o : OutVal) (mem : List Rlz) (A B : Rlz),
      symOf A ∉ mem.map symOf → symOf B ∉ mem.map symOf →
      symOf A ≠ symOf B →
      acceptsR A (symOf B) = true → acceptsR B (symOf A) = true →
      inputsOf (addR (.strc sy ee mk ue inp o mem) [A, B]) = inp ∧
      inputsOf (addR (.strc sy ee mk ue inp o mem) [B, A]) = inp ∧
      findBySym (membersOf (addR (.strc sy ee mk ue inp o mem) [A, B]))
          (symOf A)
        = findBySym (membersOf (addR (.strc sy ee mk ue inp o mem) [B, A]))
          (symOf A) ∧
      findBySym (membersOf (addR (.strc sy ee mk ue inp o mem) [A, B]))
          (symOf B)
        = findBySym (membersOf (addR (.strc sy ee mk ue inp o mem) [B, A]))
          (symOf B) := by
  intro sy ee mk ue inp o mem A B hA hB hAB hacc1 hacc2
  have hp := addAll_pair_comm mem A B hA hB hAB
  exact ⟨rfl, rfl, hp.1, hp.2⟩

/-- Witness for claim C4 at two concrete mutually accepting constructs added
to an empty structure. -/
theorem add_link_wiring_order_independent_witness :
    inputsOf (addR (.strc ⟨4, 2⟩ [] 3 none [] (.trie []) [])
        [.cns ⟨1, 0⟩ [⟨2, 1⟩] (.num 5) none [] (.num 5),
         .cns ⟨2, 1⟩ [⟨1, 0⟩] (.num 7) none [] (.num 7)]) = [] ∧
    inputsOf (addR (.strc ⟨4, 2⟩ [] 3 none [] (.trie []) [])
        [.cns ⟨2, 1⟩ [⟨1, 0⟩] (.num 7) none [] (.num 7),
         .cns ⟨1, 0⟩ [⟨2, 1⟩] (.num 5) none [] (.num 5)]) = [] ∧
    findBySym (membersOf (addR (.strc ⟨4, 2⟩ [] 3 none [] (.trie []) [])
        [.cns ⟨1, 0⟩ [⟨2, 1⟩] (.num 5) none [] (.num 5),
         .cns ⟨2, 1⟩ [⟨1, 0⟩] (.num 7) none [] (.num 7)]))
        (symOf (.cns ⟨1, 0⟩ [⟨2, 1⟩] (.num 5) none [] (.num 5)))
      = findBySym (membersOf (addR (.strc ⟨4, 2⟩ [] 3 none [] (.trie []) [])
        [.cns ⟨2, 1⟩ [⟨1, 0⟩] (.num 7) none [] (.num 7),
         .cns ⟨1, 0⟩ [⟨2, 1⟩] (.num 5) none [] (.num 5)]))
        (symOf (.cns ⟨1, 0⟩ [⟨2, 1⟩] (.num 5) none [] (.num 5))) ∧
    findBySym (membersOf (addR (.strc ⟨4, 2⟩ [] 3 none [] (.trie []) [])
        [.cns ⟨1, 0⟩ [⟨2, 1⟩] (.num 5) none [] (.num 5),
         .cns ⟨2, 1⟩ [⟨1, 0⟩] (.num 7) none [] (.num 7)]))
        (symOf (.cns ⟨2, 1⟩ [⟨1, 0⟩] (.num 7) none [] (.num 7)))
      = findBySym (membersOf (addR (.strc ⟨4, 2⟩ [] 3 none [] (.trie []) [])
        [.cns ⟨2, 1⟩ [⟨1, 0⟩] (.num 7) none [] (.num 7),
         .cns ⟨1, 0⟩ [⟨2, 1⟩] (.num 5) none [] (.num 5)]))
        (symOf (.cns ⟨2, 1⟩ [⟨1, 0⟩] (.num 7) none [] (.num 7))) :=
  add_link_wiring_order_independent ⟨4, 2⟩ [] 3 none [] (.trie []) []
    (.cns ⟨1, 0⟩ [⟨2, 1⟩] (.num 5) none [] (.num 5))
    (.cns ⟨2, 1⟩ [⟨1, 0⟩] (.num 7) none [] (.num 7))
    (by decide) (by decide) (by decide) (by decide) (by decide)

/-! ### Claim C3 (assembly finalization) -/

theorem checkR_ok_iff (r : Rlz) :
    checkR r = .ok () ↔ checkOKB (emExpOf r) (upExpOf r) (inputsOf r) = true := by
  unfold checkR
  split
  · next hc => exact iff_of_true rfl hc
  · next hc =>
      constructor
      · intro h
        exact Except.noConfusion h
      · intro h
        exact absurd h hc

theorem checkR_error_eq (r : Rlz)
    (h : checkOKB (emExpOf r) (upExpOf r) (inputsOf r) = false) :
    checkR r =
      .error ⟨symOf r, missingOf (emExpOf r) (upExpOf r) (inputsOf r)⟩ := by
  unfold checkR
  rw [if_neg (by simp [h])]

theorem mem_missingOf_iff (ee : List CSym) (ue : Option (List CSym))
    (inp : List CSym) (s : CSym) :
    s ∈ missingOf ee ue inp ↔ ((s ∈ ee ∨ s ∈ ue.getD []) ∧ s ∉ inp) := by
  simp [missingOf, List.mem_filter, List.mem_append, or_and_right]

theorem isStrc_recompute (r : Rlz) : isStrc (recompute r) = isStrc r := by
  cases r <;> simp [recompute, resetOutput, isStrc]

theorem checkR_recompute (r : Rlz) : checkR (recompute r) = checkR r := by
  cases r <;> rfl

theorem recomputeL_eq_map : ∀ l : List Rlz,
    recomputeL l = l.map (fun r => if isStrc r then recompute r else r)
  | [] => rfl
  | r :: rs => by
      rw [recomputeL, recomputeL_eq_map rs, List.map_cons]

theorem checkCons_ok_iff : ∀ l : List Rlz,
    checkCons l = .ok () ↔ ∀ r ∈ l, isStrc r = false → checkR r = .ok () := by
  intro l
  induction l with
  | nil => simp [checkCons]
  | cons r rs ih =>
      unfold checkCons
      by_cases hs : isStrc r = true
      · rw [if_pos hs, ih]
        constructor
        · intro h x hx hxf
          rcases List.mem_cons.mp hx with he | ht
          · subst he; rw [hs] at hxf; exact absurd hxf (by simp)
          · exact h x ht hxf
        · intro h x hx hxf
          exact h x (List.mem_cons_of_mem r hx) hxf
      · simp only [Bool.not_eq_true] at hs
        rw [if_neg (by simp [hs])]
        cases hc : checkR r with
        | error e =>
            constructor
            · intro h
              exact Except.noConfusion h
            · intro h
              have := h r (List.mem_cons_self r rs) hs
              rw [hc] at this
              exact Except.noConfusion this
        | ok u =>
            rw [ih]
            constructor
            · intro h x hx hxf
              rcases List.mem_cons.mp hx with he | ht
              · subst he
                cases u
                exact hc
              · exact h x ht hxf
            · intro h x hx hxf
              exact h x (List.mem_cons_of_mem r hx) hxf

theorem checkCons_error : ∀ (l : List Rlz) (e : FinErr),
    checkCons l = .error e →
    ∃ c ∈ l, isStrc c = false ∧ checkR c = .error e := by
  intro l
  induction l with
  | nil => intro e h; exact Except.noConfusion h
  | cons r rs ih =>
      intro e h
      unfold checkCons at h
      by_cases hs : isStrc r = true
      · rw [if_pos hs] at h
        obtain ⟨c, hc, hcf, hce⟩ := ih e h
        exact ⟨c, List.mem_cons_of_mem r hc, hcf, hce⟩
      · simp only [Bool.not_eq_true] at hs
        rw [if_neg (by simp [hs])] at h
        cases hc : checkR r with
        | error e2 =>
            rw [hc] at h
            simp only [Except.error.injEq] at h
            subst h
            exact ⟨r, List.mem_cons_self r rs, hs, hc⟩
        | ok u =>
            rw [hc] at h
            obtain ⟨c, hcm, hcf, hce⟩ := ih e h
            exact ⟨c, List.mem_cons_of_mem r hcm, hcf, hce⟩

theorem checkCons_transfer (l : List Rlz) :
    (∀ c ∈ recomputeL l, isStrc c = false → checkR c = .ok ()) ↔
    (∀ r ∈ l, isStrc r = false → checkR r = .ok ()) := by
  rw [recomputeL_eq_map]
  constructor
  · intro h r hr hf
    have := h (if isStrc r then recompute r else r)
      (List.mem_map.mpr ⟨r, hr, rfl⟩)
    rw [if_neg (by simp [hf])] at this
    exact this hf
  · intro h c hc hf
    obtain ⟨r, hr, he⟩ := List.mem_map.mp hc
    by_cases hs : isStrc r = true
    · rw [if_pos hs] at he
      subst he
      rw [isStrc_recompute, hs] at hf
      exact absurd hf (by simp)
    · simp only [Bool.not_eq_true] at hs
      rw [if_neg (by simp [hs])] at he
      subst he
      exact h r hr hf

theorem deepOKL_parts : ∀ l : List Rlz,
    DeepOKL l ↔ ((∀ r ∈ l, isStrc r = true → DeepOK r) ∧
                 (∀ r ∈ l, isStrc r = false → checkR r = .ok ())) := by
  intro l
  induction l with
  | nil =>
      simp only [DeepOKL]
      constructor
      · intro _
        exact ⟨by simp, by simp⟩
      · intro _
        trivial
  | cons r rs ih =>
      simp only [DeepOKL]
      rw [ih]
      constructor
      · rintro ⟨hr, hstr, hcons⟩
        refine ⟨?_, ?_⟩
        · intro x hx hxs
          rcases List.mem_cons.mp hx with he | ht
          · subst he; exact hr
          · exact hstr x ht hxs
        · intro x hx hxf
          rcases List.mem_cons.mp hx with he | ht
          · subst he
            cases x with
            | cns sy ee d ue inp o =>
                exact (checkR_ok_iff _).mpr
                  (by simpa [DeepOK, emExpOf, upExpOf, inputsOf] using hr)
            | strc sy ee mk ue inp o mem =>
                exact absurd hxf (by simp [isStrc])
          · exact hcons x ht hxf
      · rintro ⟨hstr, hcons⟩
        refine ⟨?_, fun x hx hxs => hstr x (List.mem_cons_of_mem r hx) hxs,
               fun x hx hxf => hcons x (List.mem_cons_of_mem r hx) hxf⟩
        by_cases hs : isStrc r = true
        · exact hstr r (List.mem_cons_self r rs) hs
        · simp only [Bool.not_eq_true] at hs
          have hck := hcons r (List.mem_cons_self r rs) hs
          cases r with
          | cns sy ee d ue inp o =>
              have hb := (checkR_ok_iff _).mp hck
              simpa [DeepOK, emExpOf, upExpOf, inputsOf] using hb
          | strc sy ee mk ue inp o mem =>
              exact absurd hs (by simp [isStrc])

mutual
/-- Success of `_finalize_assembly` is equivalent to deep link-completeness,
and on success the result is exactly the bottom-up output recomputation of
the input tree. -/
theorem finalizeR_ok_iff : ∀ (r r₁ : Rlz),
    finalizeR r = .ok r₁ ↔ (DeepOK r ∧ r₁ = recompute r)
  | .cns sy ee d ue inp o, r₁ => by
      constructor
      · intro h
        unfold finalizeR at h
        cases hc : checkR (.cns sy ee d ue inp o) with
        | error e =>
            rw [hc] at h
            exact Except.noConfusion h
        | ok u =>
            rw [hc] at h
            simp only [Except.ok.injEq] at h
            subst h
            cases u
            refine ⟨?_, rfl⟩
            have hb := (checkR_ok_iff (.cns sy ee d ue inp o)).mp hc
            simpa [DeepOK, emExpOf, upExpOf, inputsOf] using hb
      · rintro ⟨hd, he⟩
        subst he
        have hok : checkR (.cns sy ee d ue inp o) = .ok () :=
          (checkR_ok_iff _).mpr
            (by simpa [DeepOK, emExpOf, upExpOf, inputsOf] using hd)
        unfold finalizeR
        rw [hok]
        rfl
  | .strc sy ee mk ue inp o mem, r₁ => by
      have ihs := finalizeStructs_ok_iff mem
      constructor
      · intro h
        unfold finalizeR at h
        cases h1 : finalizeStructs mem with
        | error e =>
            rw [h1] at h
            exact Except.noConfusion h
        | ok mem1 =>
            rw [h1] at h
            obtain ⟨hstr, hmem1⟩ := (ihs mem1).mp h1
            subst hmem1
            simp only [] at h
            cases h2 : checkCons (recomputeL mem) with
            | error e =>
                rw [h2] at h
                exact Except.noConfusion h
            | ok u2 =>
                rw [h2] at h
                simp only [] at h
                cases h3 : checkR
                    (resetOutput (.strc sy ee mk ue inp o (recomputeL mem))) with
                | error e =>
                    rw [h3] at h
                    exact Except.noConfusion h
                | ok u3 =>
                    rw [h3] at h
                    simp only [Except.ok.injEq] at h
                    subst h
                    refine ⟨?_, rfl⟩
                    have hown := (checkR_ok_iff _).mp h3
                    have hcons := (checkCons_transfer mem).mp
                      ((checkCons_ok_iff (recomputeL mem)).mp (by cases u2; exact h2))
                    have hmem : DeepOKL mem := by
                      exact (deepOKL_parts mem).mpr ⟨hstr, hcons⟩
                    exact ⟨by simpa [resetOutput, emExpOf, upExpOf, inputsOf] using hown, hmem⟩
      · rintro ⟨hd, he⟩
        subst he
        obtain ⟨hown, hmem⟩ : checkOKB ee ue inp = true ∧ DeepOKL mem := hd
        obtain ⟨hstr, hcons⟩ := (deepOKL_parts mem).mp hmem
        have h1 : finalizeStructs mem = .ok (recomputeL mem) :=
          (ihs (recomputeL mem)).mpr ⟨hstr, rfl⟩
        have h2 : checkCons (recomputeL mem) = .ok () :=
          (checkCons_ok_iff (recomputeL mem)).mpr
            ((checkCons_transfer mem).mpr hcons)
        have h3 : checkR
            (resetOutput (.strc sy ee mk ue inp o (recomputeL mem))) = .ok () :=
          (checkR_ok_iff _).mpr
            (by simpa [resetOutput, emExpOf, upExpOf, inputsOf] using hown)
        unfold finalizeR
        rw [h1]
        simp only []
        rw [h2]
        simp only []
        rw [h3]
        rfl
/-- `finalizeStructs` succeeds iff every structure member is deeply
link-complete, and then maps every structure member to its recomputation. -/
theorem finalizeStructs_ok_iff : ∀ (l l₁ : List Rlz),
    finalizeStructs l = .ok l₁ ↔
      ((∀ r ∈ l, isStrc r = true → DeepOK r) ∧ l₁ = recomputeL l)
  | [], l₁ => by
      constructor
      · intro h
        simp only [finalizeStructs, Except.ok.injEq] at h
        subst h
        exact ⟨by simp, rfl⟩
      · rintro ⟨_, he⟩
        subst he
        rfl
  | r :: rs, l₁ => by
      have ihr := finalizeR_ok_iff r
      have ihs := finalizeStructs_ok_iff rs
      by_cases hs : isStrc r = true
      · constructor
        · intro h
          unfold finalizeStructs at h
          rw [if_pos hs] at h
          cases h1 : finalizeR r with
          | error e =>
              rw [h1] at h
              exact Except.noConfusion h
          | ok r1 =>
              rw [h1] at h
              cases h2 : finalizeStructs rs with
              | error e =>
                  rw [h2] at h
                  exact Except.noConfusion h
              | ok rs1 =>
                  rw [h2] at h
                  simp only [Except.ok.injEq] at h
                  subst h
                  obtain ⟨hd, hr1⟩ := (ihr r1).mp h1
                  obtain ⟨hrest, hrs1⟩ := (ihs rs1).mp h2
                  subst hr1
                  subst hrs1
                  refine ⟨?_, by rw [recomputeL, if_pos hs]⟩
                  intro x hx hxs
                  rcases List.mem_cons.mp hx with he | ht
                  · subst he; exact hd
                  · exact hrest x ht hxs
        · rintro ⟨hall, he⟩
          subst he
          unfold finalizeStructs
          rw [if_pos hs]
          rw [(ihr (recompute r)).mpr
            ⟨hall r (List.mem_cons_self r rs) hs, rfl⟩]
          rw [(ihs (recomputeL rs)).mpr
            ⟨fun x hx hxs => hall x (List.mem_cons_of_mem r hx) hxs, rfl⟩]
          rw [recomputeL, if_pos hs]
      · simp only [Bool.not_eq_true] at hs
        constructor
        · intro h
          unfold finalizeStructs at h
          rw [if_neg (by simp [hs])] at h
          cases h2 : finalizeStructs rs with
          | error e =>
              rw [h2] at h
              exact Except.noConfusion h
          | ok rs1 =>
              rw [h2] at h
              simp only [Except.ok.injEq] at h
              subst h
              obtain ⟨hrest, hrs1⟩ := (ihs rs1).mp h2
              subst hrs1
              refine ⟨?_, by rw [recomputeL, if_neg (by simp [hs])]⟩
              intro x hx hxs
              rcases List.mem_cons.mp hx with he | ht
              · subst he; rw [hs] at hxs; exact absurd hxs (by simp)
              · exact hrest x ht hxs
        · rintro ⟨hall, he⟩
          subst he
          unfold finalizeStructs
          rw [if_neg (by simp [hs])]
          rw [(ihs (recomputeL rs)).mpr
            ⟨fun x hx hxs => hall x (List.mem_cons_of_mem r hx) hxs, rfl⟩]
          rw [recomputeL, if_neg (by simp [hs])]
end

mutual
/-- Deep link-completeness is untouched by output recomputation. -/
theorem deepOK_recompute : ∀ r : Rlz, DeepOK (recompute r) ↔ DeepOK r
  | .cns sy ee d ue inp o => Iff.rfl
  | .strc sy ee mk ue inp o mem => by
      have ih := deepOKL_recomputeL mem
      simp only [recompute, resetOutput, DeepOK]
      exact and_congr Iff.rfl ih
/-- `deepOK_recompute` over a member list. -/
theorem deepOKL_recomputeL : ∀ l : List Rlz,
    DeepOKL (recomputeL l) ↔ DeepOKL l
  | [] => Iff.rfl
  | r :: rs => by
      have ih1 := deepOK_recompute r
      have ih2 := deepOKL_recomputeL rs
      simp only [recomputeL, DeepOKL]
      by_cases hs : isStrc r = true
      · rw [if_pos hs]
        exact and_congr ih1 ih2
      · rw [if_neg hs]
        exact and_congr Iff.rfl ih2
end

theorem self_mem_allNodes : ∀ r : Rlz, r ∈ allNodes r
  | .cns sy ee d ue inp o => by simp [allNodes]
  | .strc sy ee mk ue inp o mem => by simp [allNodes]

theorem mem_allNodesL_of_mem :
    ∀ (l : List Rlz) (r : Rlz), r ∈ l → r ∈ allNodesL l := by
  intro l
  induction l with
  | nil =>
      intro r h
      exact absurd h (List.not_mem_nil r)
  | cons x t ih =>
      intro r h
      rcases List.mem_cons.mp h with he | ht
      · subst he
        simp only [allNodesL, List.mem_append]
        exact Or.inl (self_mem_allNodes r)
      · simp only [allNodesL, List.mem_append]
        exact Or.inr (ih r ht)

mutual
/-- When `_finalize_assembly` fails, the raised error is exactly the
own-node check error of some node of the tree. -/
theorem finalizeR_error : ∀ (r : Rlz) (e : FinErr), finalizeR r = .error e →
    ∃ n, n ∈ allNodes r ∧ checkR n = .error e
  | .cns sy ee d ue inp o, e => by
      intro h
      unfold finalizeR at h
      cases hc : checkR (.cns sy ee d ue inp o) with
      | error e2 =>
          rw [hc] at h
          simp only [Except.error.injEq] at h
          subst h
          exact ⟨_, self_mem_allNodes _, hc⟩
      | ok u =>
          rw [hc] at h
          exact Except.noConfusion h
  | .strc sy ee mk ue inp o mem, e => by
      intro h
      unfold finalizeR at h
      cases h1 : finalizeStructs mem with
      | error e2 =>
          rw [h1] at h
          simp only [Except.error.injEq] at h
          subst h
          obtain ⟨n, hn, hcn⟩ := finalizeStructs_error mem e2 h1
          exact ⟨n, by simp only [allNodes, List.mem_cons]; exact Or.inr hn, hcn⟩
      | ok mem1 =>
          rw [h1] at h
          obtain ⟨hstr, hmem1⟩ := (finalizeStructs_ok_iff mem mem1).mp h1
          subst hmem1
          simp only [] at h
          cases h2 : checkCons (recomputeL mem) with
          | error e2 =>
              rw [h2] at h
              simp only [Except.error.injEq] at h
              subst h
              obtain ⟨c, hcm, hcf, hce⟩ := checkCons_error (recomputeL mem) e2 h2
              rw [recomputeL_eq_map] at hcm
              obtain ⟨r0, hr0, he0⟩ := List.mem_map.mp hcm
              by_cases hs : isStrc r0 = true
              · rw [if_pos hs] at he0
                subst he0
                rw [isStrc_recompute, hs] at hcf
                exact absurd hcf (by simp)
              · rw [if_neg hs] at he0
                subst he0
                refine ⟨r0, ?_, hce⟩
                simp only [allNodes, List.mem_cons]
                exact Or.inr (mem_allNodesL_of_mem mem r0 hr0)
          | ok u2 =>
              rw [h2] at h
              simp only [] at h
              cases h3 : checkR
                  (resetOutput (.strc sy ee mk ue inp o (recomputeL mem))) with
              | error e2 =>
                  rw [h3] at h
                  simp only [Except.error.injEq] at h
                  subst h
                  exact ⟨.strc sy ee mk ue inp o mem, self_mem_allNodes _, h3⟩
              | ok u3 =>
                  rw [h3] at h
                  exact Except.noConfusion h
/-- `finalizeR_error` over the structure-member loop. -/
theorem finalizeStructs_error : ∀ (l : List Rlz) (e : FinErr),
    finalizeStructs l = .error e →
    ∃ n, n ∈ allNodesL l ∧ checkR n = .error e
  | [], e => by
      intro h
      exact Except.noConfusion h
  | r :: rs, e => by
      intro h
      unfold finalizeStructs at h
      by_cases hs : isStrc r = true
      · rw [if_pos hs] at h
        cases h1 : finalizeR r with
        | error e2 =>
            rw [h1] at h
            simp only [Except.error.injEq] at h
            subst h
            obtain ⟨n, hn, hcn⟩ := finalizeR_error r e2 h1
            refine ⟨n, ?_, hcn⟩
            simp only [allNodesL, List.mem_append]
            exact Or.inl hn
        | ok r1 =>
            rw [h1] at h
            simp only [] at h
            cases h2 : finalizeStructs rs with
            | error e2 =>
                rw [h2] at h
                simp only [Except.error.injEq] at h
                subst h
                obtain ⟨n, hn, hcn⟩ := finalizeStructs_error rs e2 h2
                refine ⟨n, ?_, hcn⟩
                simp only [allNodesL, List.mem_append]
                exact Or.inr hn
            | ok rs1 =>
                rw [h2] at h
                exact Except.noConfusion h
      · rw [if_neg hs] at h
        cases h2 : finalizeStructs rs with
        | error e2 =>
            rw [h2] at h
            simp only [Except.error.injEq] at h
            subst h
            obtain ⟨n, hn, hcn⟩ := finalizeStructs_error rs e2 h2
            refine ⟨n, ?_, hcn⟩
            simp only [allNodesL, List.mem_append]
            exact Or.inr hn
        | ok rs1 =>
            rw [h2] at h
            exact Except.noConfusion h
end

/-- Claim C3: the own-node check of `_finalize_assembly` succeeds exactly
when the emitter's `check_links` accepts the current input-link table and,
when an updater is attached, the updater's `check_links` accepts it too;
otherwise it raises an assembly error carrying the realizer's symbol and the
set of expected-but-missing source symbols.  A leaf construct's
`_finalize_assembly` is exactly this check.  A structure's
`_finalize_assembly` succeeds iff the whole tree is deeply link-complete, in
which case it returns the tree with outputs recomputed bottom-up, so after
a successful top-level finalization every node — every member included — has
all its expected links; on failure the raised error is the own-node check
error of some node of the tree. -/
theorem finalize_assembly_checks :
    (∀ r : Rlz, checkR r = .ok () ↔
      checkOKB (emExpOf r) (upExpOf r) (inputsOf r) = true) ∧
    (∀ r : Rlz, checkOKB (emExpOf r) (upExpOf r) (inputsOf r) = false →
      checkR r =
        .error ⟨symOf r, missingOf (emExpOf r) (upExpOf r) (inputsOf r)⟩) ∧
    (∀ (ee : List CSym) (ue : Option (List CSym)) (inp : List CSym) (s : CSym),
      s ∈ missingOf ee ue inp ↔ ((s ∈ ee ∨ s ∈ ue.getD []) ∧ s ∉ inp)) ∧
    (∀ (sy : CSym) (ee : List CSym) (d : OutVal) (ue : Option (List CSym))
        (inp : List CSym) (o : OutVal) (r₁ : Rlz),
      finalizeR (.cns sy ee d ue inp o) = .ok r₁ ↔
        (checkOKB ee ue inp = true ∧ r₁ = .cns sy ee d ue inp o)) ∧
    (∀ (r r₁ : Rlz), finalizeR r = .ok r₁ ↔ (DeepOK r ∧ r₁ = recompute r)) ∧
    (∀ (r r₁ : Rlz), finalizeR r = .ok r₁ → DeepOK r₁) ∧
    (∀ (r : Rlz) (e : FinErr), finalizeR r = .error e →
      ∃ n, n ∈ allNodes r ∧ checkR n = .error e) := by
  refine ⟨checkR_ok_iff, checkR_error_eq, mem_missingOf_iff, ?_,
    finalizeR_ok_iff, ?_, finalizeR_error⟩
  · intro sy ee d ue inp o r₁
    rw [finalizeR_ok_iff]
    exact Iff.rfl
  · intro r r₁ h
    obtain ⟨hd, he⟩ := (finalizeR_ok_iff r r₁).mp h
    subst he
    exact (deepOK_recompute r).mpr hd

/-- Witness for claim C3: a successfully finalized two-member structure is
deeply link-complete. -/
theorem finalize_assembly_checks_witness :
    DeepOK (.strc ⟨4, 2⟩ [] 3 none [] (.trie [(⟨1, 0⟩, .num 5), (⟨2, 1⟩, .num 7)])
      [.cns ⟨1, 0⟩ [⟨2, 1⟩] (.num 5) none [⟨2, 1⟩] (.num 5),
       .cns ⟨2, 1⟩ [⟨1, 0⟩] (.num 7) none [⟨1, 0⟩] (.num 7)]) :=
  finalize_assembly_checks.2.2.2.2.2.1
    (.strc ⟨4, 2⟩ [] 3 none [] (.trie [])
      [.cns ⟨1, 0⟩ [⟨2, 1⟩] (.num 5) none [⟨2, 1⟩] (.num 5),
       .cns ⟨2, 1⟩ [⟨1, 0⟩] (.num 7) none [⟨1, 0⟩] (.num 7)])
    (.strc ⟨4, 2⟩ [] 3 none [] (.trie [(⟨1, 0⟩, .num 5), (⟨2, 1⟩, .num 7)])
      [.cns ⟨1, 0⟩ [⟨2, 1⟩] (.num 5) none [⟨2, 1⟩] (.num 5),
       .cns ⟨2, 1⟩ [⟨1, 0⟩] (.num 7) none [⟨1, 0⟩] (.num 7)])
    (by rfl)

end PyClarion
